import Mathlib

/-!
Verification of the Traversome heuristic path generator
(`traversome/PathGeneratorGraphAlignment.py`, `traversome/GraphAlignRecords.py`,
`estimate_isomer_frequencies.py`).

Shallow embedding conventions:
* an oriented segment `(name, strand)` is a `String × Bool` pair, exactly the
  tuples the Python code manipulates;
* Python `float` quantities that the verified claims depend on are modelled as
  rationals `ℚ` (the claims under study are control-flow and counting facts,
  not rounding facts), Python `int` as `ℤ`/`ℕ`;
* Python dict/set iteration is modelled by lists in insertion order;
* fallible code (asserts, KeyError/IndexError/ZeroDivisionError) returns
  `Option`;
* the graph object (`Assembly`) is not part of the sources, only its callers
  and the standalone helpers in `estimate_isomer_frequencies.py` are.  The
  helpers present in the sources (`sort_path`, `is_circular_path`,
  `get_path_length`) are transliterated from there; the remaining operations
  (`get_standardized_circular_path`, `contain_path`, `is_fully_covered_by`,
  `find_greatest_common_divisor`) are modelled from the spec and marked so.
-/

/-- An oriented segment: `(segment name, strand)`, `true` = forward. -/
abbrev OSeg : Type := String × Bool

/-- A path/walk through the assembly graph: an ordered list of oriented
segments, as the Python lists of `(name, strand)` tuples. -/
abbrev GPath : Type := List OSeg

/-- `reverse_path`: reverse the order and flip every strand.  Transliterates
the reversal of `sort_path` in `estimate_isomer_frequencies.py`:
`[(segment, not strand) for segment, strand in input_path][::-1]`. -/
def reverse_path (p : GPath) : GPath :=
  (p.map (fun s => (s.1, !s.2))).reverse

/-- The read-only capability surface of the assembly graph that the generator
consumes: vertex list (in `vertex_info` iteration order), per-segment length
and coverage, oriented connection sets (in their Python iteration order), and
the graph `overlap()`. -/
structure AsmGraph where
  vertexNames : List String
  vLen : String → ℕ
  vCov : String → ℚ
  connections : String → Bool → List OSeg
  ovl : ℕ

/-- `is_circular_path`: transliterates the helper in
`estimate_isomer_frequencies.py` (which matches the spec sentence "a path is
circular iff the reverse of its last oriented segment appears in the
forward-neighbor set of its first oriented segment"):
`(input_path[-1][0], not input_path[-1][1]) in
 assembly_graph.vertex_info[input_path[0][0]].connections[input_path[0][1]]`. -/
def is_circular_path (g : AsmGraph) (p : GPath) : Bool :=
  match p.head?, p.getLast? with
  | some f, some l => (g.connections f.1 f.2).contains (l.1, !l.2)
  | _, _ => false

/-- `get_path_length`: transliterates the helper in
`estimate_isomer_frequencies.py`:
`sum(len(v) - overlap for v in path) + overlap * int(is_circular_path(path))`. -/
def get_path_length (g : AsmGraph) (p : GPath) : ℤ :=
  (p.map (fun s => (g.vLen s.1 : ℤ) - (g.ovl : ℤ))).sum +
    (if is_circular_path g p then (g.ovl : ℤ) else 0)

/-- Modelled from the spec: `contain_path(path)` of the missing `Assembly`
class — "all consecutive OrientedSegment transitions exist as edges", with
the step convention read off the extension code (`next_connections =
connections[last_name][last_end]`, appended segment `(next_name, not
next_end)`), plus existence of every referenced vertex. -/
def contain_path (g : AsmGraph) (p : GPath) : Bool :=
  p.all (fun s => g.vertexNames.contains s.1) &&
    (p.zip p.tail).all (fun sp => (g.connections sp.1.1 sp.1.2).contains (sp.2.1, !sp.2.2))

/-- Modelled from the spec: `is_fully_covered_by(path)` of the missing
`Assembly` class — "true iff every graph segment appears at least once". -/
def is_fully_covered_by (g : AsmGraph) (p : GPath) : Bool :=
  g.vertexNames.all (fun v => (p.map Prod.fst).contains v)

/-- Code-point lexicographic comparison of character lists: Python string
comparison. -/
def charListLtB : List Char → List Char → Bool
  | [], [] => false
  | [], _ :: _ => true
  | _ :: _, [] => false
  | c :: cs, d :: ds =>
    if c.val.toNat < d.val.toNat then true
    else if d.val.toNat < c.val.toNat then false
    else charListLtB cs ds

/-- Python string `<`. -/
def strLtB (a b : String) : Bool :=
  charListLtB a.data b.data

/-- Lexicographic order on oriented segments, mirroring Python tuple
comparison of `(str, bool)` (with `False < True`). -/
def osegLtB (a b : OSeg) : Bool :=
  if a.1 = b.1 then !a.2 && b.2 else strLtB a.1 b.1

/-- Lexicographic order on paths, mirroring Python list comparison. -/
def pathLtB : GPath → GPath → Bool
  | [], [] => false
  | [], _ :: _ => true
  | _ :: _, [] => false
  | a :: xs, b :: ys =>
    if osegLtB a b then true else if osegLtB b a then false else pathLtB xs ys

/-- `sort_path` from `estimate_isomer_frequencies.py`: the standardized
(linear) representative `sorted([input_path, reverse_path])[0]`. -/
def sort_path (p : GPath) : GPath :=
  if pathLtB (reverse_path p) p then reverse_path p else p

/-- Rotation of a list by `j` places (`p[j:] + p[:j]`). -/
def rotl (p : GPath) (j : ℕ) : GPath :=
  p.drop j ++ p.take j

/-- Modelled from the spec: the candidate set of the missing
`get_standardized_circular_path` — "among all rotations and `{p, reverse(p)}`,
the lexicographically smallest representation" (this is also the candidate set
built by the commented-out `__circular_directed_graph_solver` in
`PathGeneratorGraphAlignment.py`). -/
def std_circular_candidates (p : GPath) : List GPath :=
  (List.range (max p.length 1)).flatMap (fun j => [rotl p j, rotl (reverse_path p) j])

/-- Least element of a list of paths under `pathLtB` (Python `sorted(...)[0]`). -/
def pathListMin (c : GPath) (cs : List GPath) : GPath :=
  cs.foldl (fun acc q => if pathLtB q acc then q else acc) c

/-- Modelled from the spec: `get_standardized_circular_path` — the
lexicographically smallest among all rotations of the path and of its
reverse. -/
def get_standardized_circular_path (p : GPath) : GPath :=
  match std_circular_candidates p with
  | [] => p
  | c :: cs => pathListMin c cs

/-- Modelled from the spec: `find_greatest_common_divisor` of
`traversome/utils.py` (missing from the sources) — "compute the GCD g of
per-segment counts". -/
def find_greatest_common_divisor (xs : List ℕ) : ℕ :=
  xs.foldr Nat.gcd 0

/-- `get_v_counts` inside `__decompose_hetero_units`:
`[_path.count(_v_name) for _v_name in self.graph.vertex_info]`. -/
def get_v_counts (g : AsmGraph) (names : List String) : List ℕ :=
  g.vertexNames.map (fun v => names.count v)

/- ----------------------------------------------------------------- -/
/- GAF path parsing (`GraphAlignRecords.py`, `GAFRecord.parse_gaf_path`) -/
/- ----------------------------------------------------------------- -/

/-- Characters that terminate a GAF path token: the regex
`.[^\s><]*` excludes whitespace and the orientation markers from the
token tail.  `\s` in Python is `[ \t\n\r\f\v]`. -/
def gafTokenStop (c : Char) : Bool :=
  c = ' ' || c = '\t' || c = '\n' || c = '\r' || c = '\x0c' || c = '\x0b' ||
    c = '>' || c = '<'

/-- Tokenization performed by `re.findall(r".[^\s><]*", path_str)`: every
match is one arbitrary character followed by the longest run of characters
that are neither whitespace nor `>`/`<`. -/
def gaf_findall : List Char → List (List Char)
  | [] => []
  | c :: rest =>
    (c :: rest.takeWhile (fun ch => !gafTokenStop ch)) ::
      gaf_findall (rest.dropWhile (fun ch => !gafTokenStop ch))
termination_by cs => cs.length
decreasing_by
  simp only [List.length_cons]
  exact Nat.lt_succ_of_le (List.Sublist.length_le (List.dropWhile_sublist _))

/-- Python `segment.split(":")[0]` on a character list. -/
def splitColonHead (cs : List Char) : String :=
  String.mk (cs.takeWhile (fun ch => ch ≠ ':'))

/-- The per-token branch of `GAFRecord.parse_gaf_path`:
`if segment[0] == ">": ... elif segment[0] == "<": ... else: ...`, dropping
the coordinate suffix after `:` in every case.  (Regex tokens are never
empty; the `[]` case is unreachable.) -/
def gaf_token_to_oseg (tok : List Char) : OSeg :=
  match tok with
  | [] => (splitColonHead [], true)
  | c :: rest =>
    if c = '>' then (splitColonHead rest, true)
    else if c = '<' then (splitColonHead rest, false)
    else (splitColonHead (c :: rest), true)

/-- `GAFRecord.parse_gaf_path`: tokenize `path_str` with
`re.findall(r".[^\s><]*", ...)` and convert each token. -/
def parse_gaf_path (pathStr : String) : List OSeg :=
  (gaf_findall pathStr.data).map gaf_token_to_oseg

/-- Statement-side description of the per-token mapping, written from the
claim: a token starting with `>` becomes `(name, forward)`, with `<` becomes
`(name, reverse)`, with neither defaults to `(name, forward)`; in every case
the `:`-separated coordinate suffix is stripped from the name. -/
def claimed_token_to_oseg (tok : List Char) : OSeg :=
  if tok.head? = some '>' then (splitColonHead (tok.drop 1), true)
  else if tok.head? = some '<' then (splitColonHead (tok.drop 1), false)
  else (splitColonHead tok, true)

/- ----------------------------------------------------------------- -/
/- Read-path indexing (`index_readpaths_subpaths`, lines 139-184)      -/
/- ----------------------------------------------------------------- -/

/-- The part of a `GAFRecord`/`SPATSVRecord` consumed by the indexer:
`.path` and `.p_align_len`. -/
structure AlignRec where
  path : GPath
  pAlignLen : ℤ

/-- The starting-suffix insertions performed for one read path (lines
168-172): for every `sub_contig_num` in `range(1, read_contig_num)`, the
forward prefix under strand `True` and the reverse-path prefix under strand
`False`. -/
def index_start_events (p : GPath) : List (GPath × Bool) :=
  ((List.range (p.length - 1)).map (· + 1)).flatMap (fun k =>
    [(p.take k, true), ((reverse_path p).take k, false)])

/-- The middle-substring insertions performed for one read path (lines
173-181): for every `sub_contig_num` and every interior start
`go_sub ∈ range(1, read_contig_num - sub_contig_num)`, the `k`-window of the
forward and of the reverse path. -/
def index_middle_events (p : GPath) : List (GPath × Bool) :=
  ((List.range (p.length - 1)).map (· + 1)).flatMap (fun k =>
    ((List.range (p.length - k - 1)).map (· + 1)).flatMap (fun s =>
      [((p.drop s).take k, true), (((reverse_path p).drop s).take k, false)]))

/-- `get_standardized_path` applied to each raw alignment path at ingestion.
The method itself is not in the sources; the in-source `sort_path` (in
`estimate_isomer_frequencies.py`) and the spec ("standardisation picks, among
`{p, reverse(p)}`, the lexicographically smallest") give the linear
standardization. -/
def get_standardized_path (p : GPath) : GPath :=
  sort_path p

/-- Result of `index_readpaths_subpaths`: the deduplicated read paths in
first-observation order, their multiplicities, the two insertion-event
streams, and `local_max_alignment_len`. -/
structure IndexResult where
  readPaths : List GPath
  readPathsCounter : List (GPath × ℕ)
  startEvents : List (GPath × Bool)
  middleEvents : List (GPath × Bool)
  localMaxAlignmentLen : ℤ

/-- First pass of `index_readpaths_subpaths`: accumulate
`(read_paths, counter, alignment_lengths)` over the alignment records,
keeping (when `filter_by_graph`) only records whose standardized path the
graph contains. -/
def index_collect_step (g : AsmGraph) (filterByGraph : Bool)
    (acc : List GPath × List (GPath × ℕ) × List ℤ) (rec : AlignRec) :
    List GPath × List (GPath × ℕ) × List ℤ :=
  let p := get_standardized_path rec.path
  if filterByGraph && !contain_path g p then acc
  else if (acc.2.1.map Prod.fst).contains p then
    (acc.1, acc.2.1.map (fun e => if e.1 = p then (e.1, e.2 + 1) else e),
      acc.2.2 ++ [rec.pAlignLen])
  else (acc.1 ++ [p], acc.2.1 ++ [(p, 1)], acc.2.2 ++ [rec.pAlignLen])

def index_collect (g : AsmGraph) (filterByGraph : Bool) (recs : List AlignRec) :
    List GPath × List (GPath × ℕ) × List ℤ :=
  recs.foldl (index_collect_step g filterByGraph) ([], [], [])

/-- `index_readpaths_subpaths` (lines 139-184).  Returns `none` exactly when
the Python code raises: `sorted(alignment_lengths)[-1]` throws `IndexError`
when no record was kept. -/
def index_readpaths_subpaths (g : AsmGraph) (alignment : List AlignRec)
    (filterByGraph : Bool) : Option IndexResult :=
  let (rps, ctr, lens) := index_collect g filterByGraph alignment
  match (lens.mergeSort (· ≤ ·)).getLast? with
  | none => none
  | some m =>
    some
      { readPaths := rps
        readPathsCounter := ctr
        startEvents := rps.flatMap index_start_events
        middleEvents := rps.flatMap index_middle_events
        localMaxAlignmentLen := m }

/- ----------------------------------------------------------------- -/
/- Coverage statistics (`__get_cov_mean`, lines 865-892)               -/
/- ----------------------------------------------------------------- -/

/-- Unique names of a path in some order (the mean below is a sum, hence
independent of the dict iteration order). -/
def uniqueNames (p : GPath) : List String :=
  (p.map Prod.fst).dedup

/-- Count of a name among the oriented segments of a path. -/
def nameCount (p : GPath) (v : String) : ℕ :=
  (p.map Prod.fst).count v

/-- Lookup of the multiplicity of a name in the association list
(`v_names.get(del_n, 0)`). -/
def multGet (vn : List (String × ℕ)) (v : String) : ℕ :=
  match vn.find? (fun e => e.1 = v) with
  | some e => e.2
  | none => 0

/-- `v_names[del_n] -= del_names[del_n]; if v_names[del_n] == 0: del ...`:
subtract a valid exclusion and drop the entry when it reaches zero. -/
def multSub (vn : List (String × ℕ)) (v : String) (d : ℕ) : List (String × ℕ) :=
  (vn.map (fun e => if e.1 = v then (e.1, e.2 - d) else e)).filter (fun e => e.2 ≠ 0)

/-- The initial multiplicity table of `__get_cov_mean`:
`{v_n: v_names.count(v_n) for v_n in set(v_names)}`. -/
def multiplicity_table (p : GPath) : List (String × ℕ) :=
  (uniqueNames p).map (fun v => (v, nameCount p v))

/-- The exclusion loop of `__get_cov_mean` (lines 869-878): for each excluded
name, if its exclusion multiplicity exceeds that of the path, only
`logger.error(...)` runs and the table is left unchanged; otherwise the
multiplicity is reduced (and removed at zero). -/
def apply_exclusion_step (ex : GPath) (acc : List (String × ℕ)) (dn : String) :
    List (String × ℕ) :=
  let dc := nameCount ex dn
  if dc > multGet acc dn then acc else multSub acc dn dc

def apply_exclusion (vn : List (String × ℕ)) (ex : GPath) : List (String × ℕ) :=
  (uniqueNames ex).foldl (apply_exclusion_step ex) vn

/-- `__get_cov_mean` (lines 865-892), without the optional standard deviation.
`none` models the Python failure modes: the `assert len(path)`, the
`__check_path` exception for unknown vertices, and the numpy
`ZeroDivisionError` when the weights sum to zero.  The mean is
`np.average(cov(v)/count(v), weights = len(v)*count(v))`. -/
def get_cov_mean (g : AsmGraph) (covs : String → ℚ) (p : GPath)
    (excludePath : Option GPath) : Option ℚ :=
  if p = [] then none
  else if !p.all (fun s => g.vertexNames.contains s.1) then none
  else
    let vn0 := multiplicity_table p
    let vn :=
      match excludePath with
      | none => vn0
      | some ex => if ex = [] then vn0 else apply_exclusion vn0 ex
    let wsum : ℚ := (vn.map (fun e => (g.vLen e.1 : ℚ) * (e.2 : ℚ))).sum
    if wsum = 0 then none
    else
      some ((vn.map (fun e => covs e.1 / (e.2 : ℚ) * ((g.vLen e.1 : ℚ) * (e.2 : ℚ)))).sum / wsum)

/- ----------------------------------------------------------------- -/
/- Graph extension branch (`__heuristic_extend_path`, lines 464-513)  -/
/- ----------------------------------------------------------------- -/

/-- Insertion of an oriented segment into a sorted list (Python `sorted`). -/
def osegInsert (a : OSeg) : List OSeg → List OSeg
  | [] => [a]
  | b :: bs => if osegLtB a b then a :: b :: bs else b :: osegInsert a bs

/-- Python `sorted(next_connections)` on the oriented connection set. -/
def osegSort (l : List OSeg) : List OSeg :=
  l.foldr osegInsert []

/-- The control-flow outcome of the graph-extension step of
`__heuristic_extend_path` when no sub-path candidates exist (lines 464-513):
either there is no next connection (dead end: reverse or stop), or the
`len(next_connections) > 2` branch runs (candidates are sorted and one is
sampled with weights), or the `else` branch runs and
`list(next_connections)[0]` is proposed deterministically as
`(next_name, not next_end)`. -/
inductive GraphExtendBranch where
  | deadEnd : GraphExtendBranch
  | singleStep (ext : OSeg) : GraphExtendBranch
  | weightedSample (cands : List OSeg) : GraphExtendBranch
  deriving DecidableEq, Repr

/-- The branch selection of the graph-extension step (lines 466-506):
`next_connections = self.graph.vertex_info[last_name].connections[last_end]`,
then `if next_connections: if len(next_connections) > 2: ... else:
next_name, next_end = list(next_connections)[0]`, and the proposed extension
is `[(next_name, not next_end)]`. -/
def heuristic_extend_graph_branch (g : AsmGraph) (p : GPath) : GraphExtendBranch :=
  match p.getLast? with
  | none => .deadEnd
  | some last =>
    match g.connections last.1 last.2 with
    | [] => .deadEnd
    | c :: cs =>
      if 2 < (c :: cs).length then .weightedSample (osegSort (c :: cs))
      else .singleStep (c.1, !c.2)

/- ----------------------------------------------------------------- -/
/- Multiplicity check (`__heuristic_check_multiplicity`, lines 789-809)-/
/- ----------------------------------------------------------------- -/

/-- The three ways the contraction loop of `__heuristic_check_multiplicity`
can continue: accept a prefix of the proposed extension and recurse on the
grown walk, recurse on the reversed walk, or return the walk unchanged. -/
inductive MultiplicityOutcome where
  | accept (newPath : GPath) : MultiplicityOutcome
  | reverseRecurse (newPath : GPath) : MultiplicityOutcome
  | stopUnchanged (path : GPath) : MultiplicityOutcome
  deriving DecidableEq, Repr

/-- The `for rev_go, like_ratio in enumerate(like_ratio_list[::-1])` loop of
`__heuristic_check_multiplicity` (lines 789-809): `previous_like` starts at
`0.`, `proposed_end = longest_ex_len - rev_go`,
`draw_prob = (like_ratio - previous_like) / (1. - previous_like)`, and a
prefix is accepted as soon as `draw_prob > random()`; the `else` of the `for`
reverses the walk unless `not_do_reverse` is already set. -/
def hcm_loop_go (path ext : GPath) (rand : ℕ → ℚ) (notDoReverse : Bool) :
    List ℚ → ℕ → ℚ → MultiplicityOutcome
  | [], _, _ =>
    if notDoReverse then .stopUnchanged path else .reverseRecurse (reverse_path path)
  | likeRatio :: rest, revGo, previousLike =>
    let proposedEnd := ext.length - revGo
    let drawProb := (likeRatio - previousLike) / (1 - previousLike)
    if rand revGo < drawProb then .accept (path ++ ext.take proposedEnd)
    else hcm_loop_go path ext rand notDoReverse rest (revGo + 1) likeRatio

/-- The contraction phase of `__heuristic_check_multiplicity` (lines 789-809),
given the cumulative likelihood-ratio list for the proposed extension and the
stream of `self.__random.random()` draws. -/
def heuristic_check_multiplicity (path ext : GPath) (likeRatioList : List ℚ)
    (rand : ℕ → ℚ) (notDoReverse : Bool) : MultiplicityOutcome :=
  hcm_loop_go path ext rand notDoReverse likeRatioList.reverse 0 0

/-- Statement-side draw probability, written from the claim:
`draw = (L[i] - L[i+1]) / (1 - L[i+1])` with `L[m+1] := 0`, for `i ∈ 1..m`
(`L` is 1-indexed in the claim, so `L[i]` is `L.getD (i-1) 0`). -/
def draw_prob_claim (L : List ℚ) (i : ℕ) : ℚ :=
  (L.getD (i - 1) 0 - L.getD i 0) / (1 - L.getD i 0)

/-- Statement-side acceptance search, written from the claim: from `i = m`
down to `1`, accept the first `i` whose draw probability exceeds the fresh
uniform draw (the `k`-th draw of the stream is consumed at `i = m - k`). -/
def claim_accept_index (L : List ℚ) (rand : ℕ → ℚ) (m : ℕ) : Option ℕ :=
  (List.range m).findSome? (fun k =>
    if rand k < draw_prob_claim L (m - k) then some (m - k) else none)

/-- Statement-side multiplicity check, written from the claim: if some prefix
length `i` is accepted, exactly `e[1..i]` is appended and extension recurses;
otherwise the walk is reversed and extension recurses when the reverse end
has not been tried yet, else the walk is returned unchanged. -/
def claimed_check_multiplicity (path ext : GPath) (L : List ℚ) (rand : ℕ → ℚ)
    (notDoReverse : Bool) : MultiplicityOutcome :=
  match claim_accept_index L rand ext.length with
  | some i => .accept (path ++ ext.take i)
  | none =>
    if notDoReverse then .stopUnchanged path else .reverseRecurse (reverse_path path)

/- ----------------------------------------------------------------- -/
/- Hetero-unit decomposition (`__decompose_hetero_units`, lines 344-392) -/
/- ----------------------------------------------------------------- -/

/-- `gcd = find_greatest_common_divisor(get_v_counts(v_list))`. -/
def dhu_gcd (g : AsmGraph) (p : GPath) : ℕ :=
  find_greatest_common_divisor (get_v_counts g (p.map Prod.fst))

/-- `unit_counts = [int(v_count/gcd) for v_count in v_counts]`. -/
def dhu_unit_counts (g : AsmGraph) (p : GPath) : List ℕ :=
  (get_v_counts g (p.map Prod.fst)).map (· / dhu_gcd g p)

/-- `unit_len = int(len(v_list) / gcd)`. -/
def dhu_unit_len (g : AsmGraph) (p : GPath) : ℕ :=
  p.length / dhu_gcd g p

/-- `reseed_at = self.__random.randint(0, unit_len - 1)`: the RNG value is
an input of the model, reduced into the interval drawn by `randint`. -/
def dhu_r (g : AsmGraph) (p : GPath) (reseedAt : ℕ) : ℕ :=
  reseedAt % dhu_unit_len g p

/-- `v_list_shuffled = v_list[len(v_list) - reseed_at:] + v_list
 + v_list[:unit_len]`. -/
def dhu_shuffled_names (g : AsmGraph) (p : GPath) (reseedAt : ℕ) : List String :=
  let vl := p.map Prod.fst
  vl.drop (vl.length - dhu_r g p reseedAt) ++ vl ++ vl.take (dhu_unit_len g p)

/-- The `for try_start in range(unit_len)` search (lines 367-378): succeed at
the first window whose counts equal `unit_counts` together with every later
unit of the candidate split; otherwise slide the window counts by
decrementing the leaving name and incrementing the entering name.
(`counts_check` always holds the counts of the current window; the natural
subtraction is exact because the decremented name is in the window.) -/
def find_try_start_go (g : AsmGraph) (shuffledNames : List String)
    (unitLen gcd : ℕ) (unitCounts : List ℕ) :
    ℕ → ℕ → List ℕ → Option ℕ
  | 0, _, _ => none
  | fuel + 1, t, countsCheck =>
    if countsCheck == unitCounts &&
        ((List.range (gcd - 1)).map (· + 1)).all (fun gu =>
          get_v_counts g ((shuffledNames.drop (t + unitLen * gu)).take unitLen)
            == unitCounts) then
      some t
    else
      let i1 := g.vertexNames.indexOf (shuffledNames.getD t "")
      let cc1 := countsCheck.set i1 (countsCheck.getD i1 0 - 1)
      let i2 := g.vertexNames.indexOf (shuffledNames.getD (t + unitLen) "")
      let cc2 := cc1.set i2 (cc1.getD i2 0 + 1)
      find_try_start_go g shuffledNames unitLen gcd unitCounts fuel (t + 1) cc2

/-- The `try_start`/`find_start` result of `__decompose_hetero_units`:
`some t` iff the composition search found a splitting offset. -/
def dhu_try_start (g : AsmGraph) (p : GPath) (reseedAt : ℕ) : Option ℕ :=
  let unitLen := dhu_unit_len g p
  let sn := dhu_shuffled_names g p reseedAt
  find_try_start_go g sn unitLen (dhu_gcd g p) (dhu_unit_counts g p) unitLen 0
    (get_v_counts g (sn.take unitLen))

/-- `path_shuffled = circular_path[len(v_list) - reseed_at:] + circular_path
 + circular_path[:unit_len]`. -/
def dhu_path_shuffled (g : AsmGraph) (p : GPath) (reseedAt : ℕ) : GPath :=
  p.drop (p.length - dhu_r g p reseedAt) ++ p ++ p.take (dhu_unit_len g p)

/-- `unit_seq_len = self.graph.get_path_length(path_shuffled[try_start:
try_start + unit_len])`. -/
def dhu_unit_seq_len (g : AsmGraph) (p : GPath) (reseedAt t : ℕ) : ℤ :=
  get_path_length g (((dhu_path_shuffled g p reseedAt).drop t).take (dhu_unit_len g p))

/-- `unit_copy_num = min(max(int((local_max_alignment_len - 2) /
unit_seq_len), 1), gcd)` (`int()` of a float ratio truncates toward zero,
i.e. `Int.tdiv`). -/
def dhu_unit_copy_num (g : AsmGraph) (p : GPath) (reseedAt localMax t : ℕ) : ℕ :=
  (min (max (Int.tdiv ((localMax : ℤ) - 2) (dhu_unit_seq_len g p reseedAt t)) 1)
      (dhu_gcd g p : ℤ)).toNat

/-- The consecutive candidate blocks `path_shuffled[go_from__: go_to__]` for
`go_unit in range(int(gcd/unit_copy_num))`. -/
def dhu_blocks (g : AsmGraph) (p : GPath) (reseedAt localMax t : ℕ) : List GPath :=
  (List.range (dhu_gcd g p / dhu_unit_copy_num g p reseedAt localMax t)).map
    (fun goUnit =>
      ((dhu_path_shuffled g p reseedAt).drop
          (t + dhu_unit_len g p * dhu_unit_copy_num g p reseedAt localMax t * goUnit)).take
        (dhu_unit_len g p * dhu_unit_copy_num g p reseedAt localMax t))

/-- `__decompose_hetero_units` (lines 344-392): return `[circular_path]` when
the per-segment-count GCD is 1 or no splitting offset is found; otherwise
emit, for each candidate block that passes `is_circular_path`, its
standardized circular form. -/
def decompose_hetero_units (g : AsmGraph) (reseedAt localMax : ℕ) (p : GPath) :
    List GPath :=
  if dhu_gcd g p = 1 then [p]
  else
    match dhu_try_start g p reseedAt with
    | none => [p]
    | some t =>
      (dhu_blocks g p reseedAt localMax t).filterMap (fun b =>
        if is_circular_path g b then some (get_standardized_circular_path b) else none)

/- ----------------------------------------------------------------- -/
/- Generation loop (`__gen_heuristic_paths_uni`, lines 223-259)        -/
/- ----------------------------------------------------------------- -/

/-- The walks inserted into `components` for one traversal result (the body
of `__gen_heuristic_paths_uni` after `get_single_traversal`, lines 236-244):
reject when `force_circular` and the walk is not circular, or when
`not hetero_chromosome` and the walk does not cover the graph; decompose when
the walk has at least `2 * len(vertex_info)` segments; otherwise keep the
walk itself. -/
def process_traversal (g : AsmGraph) (forceCircular heteroChromosome : Bool)
    (reseedAt localMax : ℕ) (newPath : GPath) : List GPath :=
  if (forceCircular && !is_circular_path g newPath) ||
      (!heteroChromosome && !is_fully_covered_by g newPath) then []
  else if g.vertexNames.length * 2 ≤ newPath.length then
    decompose_hetero_units g reseedAt localMax newPath
  else [newPath]

/-- Mutable state of the single-process generation loop. -/
structure GenState where
  countSearch : ℕ
  countValid : ℕ
  components : List GPath
  componentsCounts : List (GPath × ℕ)
  contigCoverages : List (String × ℚ)
  deriving DecidableEq, Repr

/-- Configuration slice of `PathGeneratorGraphAlignment` consumed by the
single-process loop. -/
structure UniCfg where
  numSearch : ℕ
  forceCircular : Bool
  heteroChromosome : Bool
  localMax : ℕ

/-- `use_contig_coverage_from_assembly_graph` (lines 197-199):
`OrderedDict([(v_name, self.graph.vertex_info[v_name].cov) for v_name in
self.graph.vertex_info])`. -/
def use_contig_coverage_from_assembly_graph (g : AsmGraph) : List (String × ℚ) :=
  g.vertexNames.map (fun v => (v, g.vCov v))

/-- The dedup-store update for one emitted walk (lines 247-255): bump the
count of a known walk, or append a new unique walk. -/
def insert_component (p : GPath) (st : GenState) : GenState :=
  if (st.componentsCounts.map Prod.fst).contains p then
    { st with componentsCounts :=
        st.componentsCounts.map (fun e => if e.1 = p then (e.1, e.2 + 1) else e) }
  else
    { st with componentsCounts := st.componentsCounts ++ [(p, 1)]
              components := st.components ++ [p] }

/-- The `for new_path in new_path_list` insertion loop (lines 245-257):
increment `count_valid`, insert, and break once `count_valid == num_search`. -/
def insert_components (numSearch : ℕ) : List GPath → GenState → GenState
  | [], st => st
  | p :: ps, st =>
    let st1 := insert_component p { st with countValid := st.countValid + 1 }
    if st1.countValid = numSearch then st1 else insert_components numSearch ps st1

/-- One iteration of the `while count_valid < self.num_search` loop:
`count_search += 1`, validate/decompose the traversal result, insert. -/
def gen_uni_step (cfg : UniCfg) (g : AsmGraph) (trav : GPath) (r : ℕ)
    (st : GenState) : GenState :=
  insert_components cfg.numSearch
    (process_traversal g cfg.forceCircular cfg.heteroChromosome r cfg.localMax trav)
    { st with countSearch := st.countSearch + 1 }

/-- Initial state of `__gen_heuristic_paths_uni`: counters zero, empty dedup
store, `contig_coverages` populated (once, at the start of the run) from the
assembly graph. -/
def gen_uni_init (g : AsmGraph) : GenState :=
  ⟨0, 0, [], [], use_contig_coverage_from_assembly_graph g⟩

/-- `n` guarded iterations of the `while count_valid < self.num_search` loop
of `__gen_heuristic_paths_uni`.  The traversal results and the RNG draws of
`__decompose_hetero_units` enter as oracle streams (`get_single_traversal`
is stochastic and recursion-unbounded); the loop body itself is the
transliteration above. -/
def gen_uni_run (cfg : UniCfg) (g : AsmGraph) (trav : ℕ → GPath)
    (rands : ℕ → ℕ) : ℕ → GenState
  | 0 => gen_uni_init g
  | n + 1 =>
    let st := gen_uni_run cfg g trav rands n
    if cfg.numSearch ≤ st.countValid then st
    else gen_uni_step cfg g (trav n) (rands n) st

/- ----------------------------------------------------------------- -/
/- Concrete instances used by counterexamples and witnesses            -/
/- ----------------------------------------------------------------- -/

/-- Three-segment graph with symmetrically stored links
`{A.F-B.T, B.F-C.T, C.F-B.F, B.T-A.T, A.F-C.T, B.T-C.T}` (each link joins
one end of one vertex with one end of another, and is listed in the
connection sets of both of its endpoints, as the GFA parser stores links). -/
def gHetero : AsmGraph where
  vertexNames := ["A", "B", "C"]
  vLen := fun _ => 10
  vCov := fun _ => 10
  connections := fun v e =>
    match v, e with
    | "A", false => [("B", true), ("C", true)]
    | "A", true => [("B", true)]
    | "B", false => [("C", true), ("C", false)]
    | "B", true => [("A", false), ("A", true), ("C", true)]
    | "C", false => [("B", false)]
    | "C", true => [("B", false), ("A", false), ("B", true)]
    | _, _ => []
  ovl := 0

/-- A six-segment circular walk of `gHetero` with per-name counts
`[2, 2, 2]`: every consecutive transition is an edge, the walk passes
`is_circular_path`, and it is its own standardized circular form. -/
def wHetero : GPath :=
  [("A", false), ("B", false), ("C", false), ("B", true), ("A", false), ("C", false)]

/-- Two-segment circle `A+ B+ A+ ...` with both links `A.T-B.F` and
`B.T-A.F`, symmetrically stored. -/
def gCircle2 : AsmGraph where
  vertexNames := ["A", "B"]
  vLen := fun _ => 10
  vCov := fun _ => 10
  connections := fun v e =>
    match v, e with
    | "A", true => [("B", false)]
    | "B", false => [("A", true)]
    | "B", true => [("A", false)]
    | "A", false => [("B", true)]
    | _, _ => []
  ovl := 0

/-- The double circuit of `gCircle2` in standardized form. -/
def wDouble : GPath :=
  [("A", false), ("B", false), ("A", false), ("B", false)]

/-- Graph whose oriented segment `(A, true)` has exactly two oriented
connections. -/
def gTwoNeighbors : AsmGraph where
  vertexNames := ["A", "B", "C"]
  vLen := fun _ => 10
  vCov := fun _ => 10
  connections := fun v e =>
    match v, e with
    | "A", true => [("B", false), ("C", false)]
    | "B", false => [("A", true)]
    | "C", false => [("A", true)]
    | _, _ => []
  ovl := 0

/-- Dead-end linear graph `A -> B -> C` (links `A.T-B.F`, `B.T-C.F`). -/
def gLinear : AsmGraph where
  vertexNames := ["A", "B", "C"]
  vLen := fun _ => 10
  vCov := fun _ => 10
  connections := fun v e =>
    match v, e with
    | "A", true => [("B", false)]
    | "B", false => [("A", true)]
    | "B", true => [("C", false)]
    | "C", false => [("B", true)]
    | _, _ => []
  ovl := 0

/-- The full linear traversal of `gLinear`; it never circularises. -/
def wLinear : GPath :=
  [("A", true), ("B", true), ("C", true)]

/-- One-segment graph used by the coverage-mean instances. -/
def gSingle : AsmGraph where
  vertexNames := ["A"]
  vLen := fun _ => 10
  vCov := fun _ => 10
  connections := fun _ _ => []
  ovl := 0

/- ================================================================= -/
/- Theorems                                                           -/
/- ================================================================= -/

/-- The per-token conversion of the source agrees with the claimed mapping on
every token. -/
theorem gaf_token_to_oseg_eq_claimed (tok : List Char) :
    gaf_token_to_oseg tok = claimed_token_to_oseg tok := by
  cases tok with
  | nil => rfl
  | cons c rest =>
    by_cases h1 : c = '>'
    · subst h1; rfl
    · by_cases h2 : c = '<'
      · subst h2; rfl
      · simp [gaf_token_to_oseg, claimed_token_to_oseg, h1, h2]

/-- C9: for every GAF path string, parsing maps each regex token to an
oriented segment as claimed: a token starting with `>` becomes
`(name, forward)`, one starting with `<` becomes `(name, reverse)`, and a
token with neither prefix defaults to `(name, forward)`; in every case the
`:`-separated coordinate suffix is stripped from the segment name. -/
theorem c9_parse_gaf_path_tokens (s : String) :
    parse_gaf_path s = (gaf_findall s.data).map claimed_token_to_oseg := by
  unfold parse_gaf_path
  exact List.map_congr_left (fun tok _ => gaf_token_to_oseg_eq_claimed tok)

/-- C2 (failing input): in `gTwoNeighbors` the oriented segment `(A, +)` has
exactly two oriented connections, yet the graph-extension step takes the
deterministic `list(next_connections)[0]` branch (the code only samples when
`len(next_connections) > 2`), proposing `("B", true)` with no
multiplicity-likelihood weighting. -/
theorem c2_two_neighbors_deterministic :
    (gTwoNeighbors.connections "A" true).length = 2 ∧
      heuristic_extend_graph_branch gTwoNeighbors [("A", true)] =
        GraphExtendBranch.singleStep ("B", true) := by
  decide

/-- A fully invalid exclusion table is left untouched by the exclusion loop:
each step only logs and keeps the accumulator. -/
theorem apply_exclusion_all_skipped (ex : GPath) :
    ∀ (names : List String) (vn : List (String × ℕ)),
    (∀ dn ∈ names, multGet vn dn < nameCount ex dn) →
    names.foldl (apply_exclusion_step ex) vn = vn := by
  intro names
  induction names with
  | nil => intro vn _; rfl
  | cons dn ns ih =>
    intro vn h
    have hstep : apply_exclusion_step ex vn dn = vn := by
      unfold apply_exclusion_step
      simp only [if_pos (h dn (List.mem_cons_self dn ns))]
    rw [List.foldl_cons, hstep]
    exact ih vn (fun x hx => h x (List.mem_cons_of_mem dn hx))

/-- C6 (amended): when the exclusion multiplicity of every excluded segment
exceeds its multiplicity in the walk, `__get_cov_mean` does not fail: each
offending exclusion is skipped (only `logger.error` runs) and the returned
mean is exactly the mean of the walk without any exclusion. -/
theorem c6_invalid_exclusion_is_ignored (g : AsmGraph) (covs : String → ℚ)
    (p : GPath) (ex : GPath)
    (h : ∀ dn ∈ uniqueNames ex, multGet (multiplicity_table p) dn < nameCount ex dn) :
    get_cov_mean g covs p (some ex) = get_cov_mean g covs p none := by
  unfold get_cov_mean
  by_cases hp : p = []
  · simp [hp]
  · simp only [if_neg hp]
    cases hb : p.all (fun s => g.vertexNames.contains s.1) with
    | false => simp [hb]
    | true =>
      simp only [hb, Bool.not_true, Bool.false_eq_true, if_false]
      by_cases hex : ex = []
      · simp [hex]
      · simp only [if_neg hex]
        rw [show apply_exclusion (multiplicity_table p) ex = multiplicity_table p from
          apply_exclusion_all_skipped ex (uniqueNames ex) (multiplicity_table p) h]

/-- C6 (witness for the amended claim): a concrete walk and over-large
exclusion on which the amended claim applies. -/
theorem c6_invalid_exclusion_witness :
    get_cov_mean gSingle (fun _ => 10) [("A", true)] (some [("A", true), ("A", true)]) =
      get_cov_mean gSingle (fun _ => 10) [("A", true)] none :=
  c6_invalid_exclusion_is_ignored gSingle (fun _ => 10) [("A", true)]
    [("A", true), ("A", true)] (by decide)

/-- C6 (counterexample to the claim as stated): on a one-segment walk with an
exclusion of multiplicity 2 > 1, `__get_cov_mean` returns the mean `10`
instead of failing: no `CoverageExclusionInvalid` error exists or propagates. -/
theorem c6_counterexample :
    nameCount [("A", true)] "A" < nameCount [("A", true), ("A", true)] "A" ∧
      get_cov_mean gSingle (fun _ => 10) [("A", true)]
        (some [("A", true), ("A", true)]) = some 10 := by
  constructor
  · decide
  · norm_num [get_cov_mean, multiplicity_table, apply_exclusion, apply_exclusion_step,
      uniqueNames, nameCount, multGet, multSub, gSingle, List.dedup]

/-- A record whose standardized path the graph does not contain leaves the
collection state untouched when `filter_by_graph` is on. -/
theorem index_collect_step_filtered (g : AsmGraph)
    (acc : List GPath × List (GPath × ℕ) × List ℤ) (rec : AlignRec)
    (h : contain_path g (get_standardized_path rec.path) = false) :
    index_collect_step g true acc rec = acc := by
  unfold index_collect_step
  simp [h]

/-- When every record is discarded by the graph filter, the whole collection
pass produces nothing. -/
theorem index_collect_all_filtered (g : AsmGraph) :
    ∀ (recs : List AlignRec) (acc : List GPath × List (GPath × ℕ) × List ℤ),
    (∀ rec ∈ recs, contain_path g (get_standardized_path rec.path) = false) →
    recs.foldl (index_collect_step g true) acc = acc := by
  intro recs
  induction recs with
  | nil => intro acc _; rfl
  | cons rec rest ih =>
    intro acc h
    rw [List.foldl_cons,
      index_collect_step_filtered g acc rec (h rec (List.mem_cons_self rec rest))]
    exact ih acc (fun r hr => h r (List.mem_cons_of_mem rec hr))

/-- C10: index ingestion requires at least one kept alignment record.  When
the alignment iterable is empty, or `filter_by_graph` discards every record,
`index_readpaths_subpaths` fails (the `IndexError` of
`sorted(alignment_lengths)[-1]`) instead of completing with an empty index. -/
theorem c10_empty_alignment_fails (g : AsmGraph) (alignment : List AlignRec)
    (filterByGraph : Bool)
    (h : alignment = [] ∨
      (filterByGraph = true ∧
        ∀ rec ∈ alignment, contain_path g (get_standardized_path rec.path) = false)) :
    index_readpaths_subpaths g alignment filterByGraph = none := by
  rcases h with h | ⟨hf, h⟩
  · subst h
    unfold index_readpaths_subpaths index_collect
    simp
  · subst hf
    unfold index_readpaths_subpaths index_collect
    rw [index_collect_all_filtered g alignment ([], [], []) h]
    simp

/-- C10 (witness): a single record whose path mentions a segment absent from
the graph is discarded by the filter, and indexing fails. -/
theorem c10_witness :
    index_readpaths_subpaths gLinear [⟨[("X", true)], 100⟩] true = none :=
  c10_empty_alignment_fails gLinear [⟨[("X", true)], 100⟩] true
    (Or.inr ⟨rfl, by decide⟩)

/-- Length of a two-element flat map: each index contributes two insertions. -/
theorem length_flatMap_two {α : Type} (f g : ℕ → α) (l : List ℕ) :
    (l.flatMap (fun k => [f k, g k])).length = 2 * l.length := by
  induction l with
  | nil => rfl
  | cons a t ih =>
    simp only [List.flatMap_cons, List.length_append, ih, List.length_cons,
      List.length_nil]
    omega

/-- Length of a flat map as the sum of the inner lengths. -/
theorem length_flatMap_sum {α β : Type} (f : α → List β) (l : List α) :
    (l.flatMap f).length = (l.map (fun x => (f x).length)).sum := by
  induction l with
  | nil => rfl
  | cons a t ih => simp [List.flatMap_cons, ih]

/-- Sum of a function mapped over `List.range` as a `Finset.range` sum. -/
theorem list_range_map_sum (f : ℕ → ℕ) (n : ℕ) :
    ((List.range n).map f).sum = ∑ i ∈ Finset.range n, f i := by
  induction n with
  | zero => rfl
  | succ m ih =>
    rw [List.range_succ, List.map_append, List.sum_append, Finset.sum_range_succ, ih]
    simp

/-- C5: a read path of length `L ≥ 2` produces exactly `2 * (L - 1)`
starting-suffix insertions and exactly `2 * Σ_{k=1..L-2} (L - k - 1)` middle
substring insertions (`Finset.Ico 1 (L-1)` is `{1, ..., L-2}`). -/
theorem c5_index_insertion_counts (p : GPath) (h : 2 ≤ p.length) :
    (index_start_events p).length = 2 * (p.length - 1) ∧
      (index_middle_events p).length =
        2 * ∑ k ∈ Finset.Ico 1 (p.length - 1), (p.length - k - 1) := by
  constructor
  · unfold index_start_events
    rw [length_flatMap_two]
    simp
  · unfold index_middle_events
    rw [length_flatMap_sum]
    have inner : ∀ k : ℕ,
        (((List.range (p.length - k - 1)).map (· + 1)).flatMap (fun s =>
          [((p.drop s).take k, true), (((reverse_path p).drop s).take k, false)])).length
          = 2 * (p.length - k - 1) := by
      intro k
      rw [length_flatMap_two]
      simp
    rw [List.map_congr_left (fun k _ => inner k), List.map_map]
    have comp_eq : ((fun k => 2 * (p.length - k - 1)) ∘ (· + 1)) =
        (fun i => 2 * (p.length - (i + 1) - 1)) := rfl
    rw [comp_eq, list_range_map_sum, Finset.mul_sum]
    have hrange : p.length - 1 = (p.length - 2) + 1 := by omega
    rw [hrange, Finset.sum_range_succ]
    have hlast : 2 * (p.length - (p.length - 2 + 1 + 1)) = 0 := by omega
    have hlast2 : 2 * (p.length - (p.length - 2 + 1) - 1) = 0 := by omega
    rw [hlast2, add_zero, Finset.sum_Ico_eq_sum_range]
    have hrange2 : p.length - 2 + 1 - 1 = p.length - 2 := by omega
    rw [hrange2]
    apply Finset.sum_congr rfl
    intro i _
    omega

/-- C5 (witness): the length-3 path contributes 4 starting-suffix and 2
middle-substring insertions. -/
theorem c5_witness :
    2 ≤ wLinear.length ∧
      ((index_start_events wLinear).length = 2 * (wLinear.length - 1) ∧
        (index_middle_events wLinear).length =
          2 * ∑ k ∈ Finset.Ico 1 (wLinear.length - 1), (wLinear.length - k - 1)) :=
  ⟨by decide, c5_index_insertion_counts wLinear (by decide)⟩

/-- The reversed-enumeration loop of `__heuristic_check_multiplicity` agrees,
step by step, with the index-based draw description of the claim: at loop step `k`
the examined prefix length is `i = m - k`, the accumulated `previous_like` is
`L[i+1]` (with `L[m+1] := 0`), and the draw probability is
`(L[i] - L[i+1]) / (1 - L[i+1])`. -/
theorem hcm_go_eq (path ext : GPath) (rand : ℕ → ℚ) (ndr : Bool) (L : List ℚ)
    (h : L.length = ext.length) :
    ∀ (n k : ℕ), n + k = L.length →
    hcm_loop_go path ext rand ndr ((L.take n).reverse) k (L.getD n 0) =
      (match (List.range' k n).findSome? (fun j =>
          if rand j < draw_prob_claim L (L.length - j) then some (L.length - j)
          else none) with
        | some i => MultiplicityOutcome.accept (path ++ ext.take i)
        | none =>
          if ndr then MultiplicityOutcome.stopUnchanged path
          else MultiplicityOutcome.reverseRecurse (reverse_path path)) := by
  intro n
  induction n with
  | zero =>
    intro k _
    simp [hcm_loop_go]
  | succ m ih =>
    intro k hk
    have hm : m < L.length := by omega
    have hLk : L.length - k = m + 1 := by omega
    have hek : ext.length - k = m + 1 := by omega
    have hgetD : L.getD m 0 = L[m] := List.getD_eq_getElem L 0 hm
    have htake : (L.take (m + 1)).reverse = L[m] :: (L.take m).reverse := by
      rw [List.take_succ, List.getElem?_eq_getElem hm]
      simp
    rw [htake, List.range'_succ, List.findSome?_cons, hLk]
    simp only [hcm_loop_go, hek]
    have hdraw : draw_prob_claim L (m + 1) =
        (L[m] - L.getD (m + 1) 0) / (1 - L.getD (m + 1) 0) := by
      unfold draw_prob_claim
      rw [Nat.add_sub_cancel, hgetD]
    by_cases hc : rand k < draw_prob_claim L (m + 1)
    · rw [if_pos hc, if_pos (hdraw ▸ hc)]
    · rw [if_neg hc, if_neg (fun hcontra => hc (hdraw ▸ hcontra))]
      rw [← hgetD]
      exact ih (k + 1) (by omega)

/-- C1: the contraction loop of `__heuristic_check_multiplicity` behaves
exactly as claimed.  For a proposed extension `e` of length `m` with
cumulative likelihood-ratio vector `L[1..m]`, it draws from `i = m` down to
`1` with probability `(L[i] - L[i+1]) / (1 - L[i+1])`, `L[m+1] := 0`; when a
draw exceeds the fresh uniform number, exactly the prefix `e[1..i]` is
appended to the walk and extension recurses; when no prefix is accepted the
walk is reversed and extension recurses unless the reverse end was already
tried, in which case the walk is returned unchanged. -/
theorem c1_check_multiplicity_eq_claim (path ext : GPath) (L : List ℚ)
    (rand : ℕ → ℚ) (ndr : Bool) (h : L.length = ext.length) :
    heuristic_check_multiplicity path ext L rand ndr =
      claimed_check_multiplicity path ext L rand ndr := by
  have key := hcm_go_eq path ext rand ndr L h L.length 0 (by omega)
  rw [List.take_length] at key
  rw [List.getD_eq_default L 0 (le_refl _)] at key
  unfold heuristic_check_multiplicity claimed_check_multiplicity claim_accept_index
  rw [← h, List.range_eq_range']
  exact key

/-- C1 (witness): a length-one extension with `L = [1/2]` and uniform draw
`1/4`: the loop accepts the whole extension on the first draw, matching the
description of the claim. -/
theorem c1_witness :
    heuristic_check_multiplicity [("A", true)] [("B", true)] [(1 : ℚ)/2]
        (fun _ => (1 : ℚ)/4) false =
      claimed_check_multiplicity [("A", true)] [("B", true)] [(1 : ℚ)/2]
        (fun _ => (1 : ℚ)/4) false :=
  c1_check_multiplicity_eq_claim [("A", true)] [("B", true)] [(1 : ℚ)/2]
    (fun _ => (1 : ℚ)/4) false rfl

/-- The insertion loop never touches `contig_coverages`. -/
theorem insert_components_coverages (numSearch : ℕ) :
    ∀ (l : List GPath) (st : GenState),
    (insert_components numSearch l st).contigCoverages = st.contigCoverages := by
  intro l
  induction l with
  | nil => intro st; rfl
  | cons p ps ih =>
    intro st
    unfold insert_components
    by_cases hc :
        (insert_component p { st with countValid := st.countValid + 1 }).countValid =
          numSearch
    · rw [if_pos hc]
      unfold insert_component
      split <;> rfl
    · rw [if_neg hc, ih]
      unfold insert_component
      split <;> rfl

/-- One loop iteration never touches `contig_coverages`. -/
theorem gen_uni_step_coverages (cfg : UniCfg) (g : AsmGraph) (trav : GPath)
    (r : ℕ) (st : GenState) :
    (gen_uni_step cfg g trav r st).contigCoverages = st.contigCoverages := by
  unfold gen_uni_step
  rw [insert_components_coverages]

/-- C8: `contig_coverages` is populated exactly once, at the start of a
generation run, from the assembly graph, and no number of loop iterations
(traversal, validation, decomposition, dedup insertion) mutates it; it maps
every graph segment to its coverage, and all stored values are non-negative
whenever the graph coverages are. -/
theorem c8_contig_coverages_stable (cfg : UniCfg) (g : AsmGraph)
    (trav : ℕ → GPath) (rands : ℕ → ℕ) (h : ∀ v, 0 ≤ g.vCov v) :
    ∀ n : ℕ,
      (gen_uni_run cfg g trav rands n).contigCoverages =
        use_contig_coverage_from_assembly_graph g ∧
      (∀ v ∈ g.vertexNames,
        (v, g.vCov v) ∈ (gen_uni_run cfg g trav rands n).contigCoverages) ∧
      (∀ e ∈ (gen_uni_run cfg g trav rands n).contigCoverages, 0 ≤ e.2) := by
  have base : ∀ n : ℕ,
      (gen_uni_run cfg g trav rands n).contigCoverages =
        use_contig_coverage_from_assembly_graph g := by
    intro n
    induction n with
    | zero => rfl
    | succ m ih =>
      unfold gen_uni_run
      by_cases hs : cfg.numSearch ≤ (gen_uni_run cfg g trav rands m).countValid
      · rw [if_pos hs]; exact ih
      · rw [if_neg hs, gen_uni_step_coverages]; exact ih
  intro n
  refine ⟨base n, ?_, ?_⟩
  · intro v hv
    rw [base n]
    exact List.mem_map.2 ⟨v, hv, rfl⟩
  · intro e he
    rw [base n] at he
    rcases List.mem_map.1 he with ⟨v, _, rfl⟩
    exact h v

/-- C8 (witness): the invariant instantiated on the linear graph after two
loop iterations. -/
theorem c8_witness :
    (gen_uni_run ⟨1, true, true, 100⟩ gLinear (fun _ => wLinear) (fun _ => 0)
        2).contigCoverages = use_contig_coverage_from_assembly_graph gLinear ∧
      (∀ v ∈ gLinear.vertexNames,
        (v, gLinear.vCov v) ∈
          (gen_uni_run ⟨1, true, true, 100⟩ gLinear (fun _ => wLinear) (fun _ => 0)
            2).contigCoverages) ∧
      (∀ e ∈ (gen_uni_run ⟨1, true, true, 100⟩ gLinear (fun _ => wLinear) (fun _ => 0)
          2).contigCoverages, 0 ≤ e.2) :=
  c8_contig_coverages_stable ⟨1, true, true, 100⟩ gLinear (fun _ => wLinear)
    (fun _ => 0) (fun _ => by norm_num [gLinear]) 2

/-- When every traversal result is rejected by the validation gate, the loop
state never changes except for `count_search`: no walk is ever counted as
valid and the dedup store stays empty. -/
theorem gen_uni_run_stuck (cfg : UniCfg) (g : AsmGraph) (trav : ℕ → GPath)
    (rands : ℕ → ℕ) (hns : 1 ≤ cfg.numSearch)
    (h : ∀ n, process_traversal g cfg.forceCircular cfg.heteroChromosome
      (rands n) cfg.localMax (trav n) = []) :
    ∀ n : ℕ,
      (gen_uni_run cfg g trav rands n).countValid = 0 ∧
      (gen_uni_run cfg g trav rands n).countSearch = n ∧
      (gen_uni_run cfg g trav rands n).components = [] := by
  intro n
  induction n with
  | zero => exact ⟨rfl, rfl, rfl⟩
  | succ m ih =>
    unfold gen_uni_run
    have hnot : ¬ cfg.numSearch ≤ (gen_uni_run cfg g trav rands m).countValid := by
      rw [ih.1]; omega
    rw [if_neg hnot]
    unfold gen_uni_step
    rw [h m]
    unfold insert_components
    exact ⟨ih.1, by simp [ih.2.1], ih.2.2⟩

/-- C7 (amended): on an input where no traversal ever produces a valid walk
(for example a dead-end linear graph with `force_circular`), the
single-process generation loop never terminates: there is no attempt bound
and no `BudgetExhausted` report; after any number `n` of iterations the loop
guard still holds, `count_valid` is still `0`, `count_search` is `n`, and
`components` is still empty. -/
theorem c7_no_budget_bound (cfg : UniCfg) (g : AsmGraph) (trav : ℕ → GPath)
    (rands : ℕ → ℕ) (hns : 1 ≤ cfg.numSearch)
    (h : ∀ n, process_traversal g cfg.forceCircular cfg.heteroChromosome
      (rands n) cfg.localMax (trav n) = []) :
    ∀ n : ℕ,
      (gen_uni_run cfg g trav rands n).countValid < cfg.numSearch ∧
      (gen_uni_run cfg g trav rands n).countValid = 0 ∧
      (gen_uni_run cfg g trav rands n).countSearch = n ∧
      (gen_uni_run cfg g trav rands n).components = [] := by
  intro n
  have key := gen_uni_run_stuck cfg g trav rands hns h n
  exact ⟨by rw [key.1]; omega, key⟩

/-- C7 (witness): the amended claim instantiated on the dead-end linear graph
with `force_circular = true` and `num_search = 1`, after 3 iterations. -/
theorem c7_witness :
    (gen_uni_run ⟨1, true, true, 100⟩ gLinear (fun _ => wLinear) (fun _ => 0)
        3).countValid < 1 ∧
      (gen_uni_run ⟨1, true, true, 100⟩ gLinear (fun _ => wLinear) (fun _ => 0)
        3).countValid = 0 ∧
      (gen_uni_run ⟨1, true, true, 100⟩ gLinear (fun _ => wLinear) (fun _ => 0)
        3).countSearch = 3 ∧
      (gen_uni_run ⟨1, true, true, 100⟩ gLinear (fun _ => wLinear) (fun _ => 0)
        3).components = [] :=
  c7_no_budget_bound ⟨1, true, true, 100⟩ gLinear (fun _ => wLinear) (fun _ => 0)
    (le_refl 1) (fun _ => rfl) 3

/-- C7 (counterexample to the claim as stated): on the dead-end linear graph
`A -> B -> C` with `force_circular = true`, the generation loop never
terminates: there is no `n` at which the `while count_valid < num_search`
guard fails, so no bounded number of traversal attempts is ever reported. -/
theorem c7_counterexample :
    ¬ ∃ n : ℕ, (1 : ℕ) ≤
      (gen_uni_run ⟨1, true, true, 100⟩ gLinear (fun _ => wLinear) (fun _ => 0)
        n).countValid := by
  rintro ⟨n, hn⟩
  have key := gen_uni_run_stuck ⟨1, true, true, 100⟩ gLinear (fun _ => wLinear)
    (fun _ => 0) (le_refl 1) (fun _ => rfl) n
  rw [key.1] at hn
  omega

/-- `sorted(...)[0]` returns an element of the candidate list. -/
theorem pathListMin_mem (cs : List GPath) :
    ∀ c, pathListMin c cs = c ∨ pathListMin c cs ∈ cs := by
  induction cs with
  | nil => intro c; exact Or.inl rfl
  | cons q qs ih =>
    intro c
    have hstep : pathListMin c (q :: qs) =
        pathListMin (if pathLtB q c then q else c) qs := rfl
    rw [hstep]
    rcases ih (if pathLtB q c then q else c) with h | h
    · rw [h]
      by_cases hq : pathLtB q c = true
      · rw [if_pos hq]; exact Or.inr (List.mem_cons_self q qs)
      · rw [if_neg hq]; exact Or.inl rfl
    · exact Or.inr (List.mem_cons_of_mem q h)

/-- Rotation preserves length. -/
theorem rotl_length (p : GPath) (j : ℕ) : (rotl p j).length = p.length := by
  unfold rotl
  simp
  omega

/-- Reversal preserves length. -/
theorem reverse_path_length (p : GPath) : (reverse_path p).length = p.length := by
  simp [reverse_path]

/-- Every standardization candidate has the same length as the path. -/
theorem std_candidates_length (p q : GPath) (h : q ∈ std_circular_candidates p) :
    q.length = p.length := by
  unfold std_circular_candidates at h
  rcases List.mem_flatMap.1 h with ⟨j, _, hj⟩
  simp only [List.mem_cons, List.mem_singleton, List.not_mem_nil, or_false] at hj
  rcases hj with rfl | rfl
  · exact rotl_length p j
  · rw [rotl_length, reverse_path_length]

/-- The standardized circular path is one of the candidates. -/
theorem std_circular_mem (p : GPath) :
    get_standardized_circular_path p ∈ std_circular_candidates p := by
  unfold get_standardized_circular_path
  cases hc : std_circular_candidates p with
  | nil =>
    exfalso
    have hlen : (std_circular_candidates p).length = 2 * (max p.length 1) := by
      unfold std_circular_candidates
      rw [length_flatMap_two, List.length_range]
    rw [hc] at hlen
    simp at hlen
  | cons c cs =>
    show pathListMin c cs ∈ c :: cs
    rcases pathListMin_mem cs c with h | h
    · rw [h]; exact List.mem_cons_self c cs
    · exact List.mem_cons_of_mem c h

/-- Standardization preserves length. -/
theorem std_circular_length (p : GPath) :
    (get_standardized_circular_path p).length = p.length :=
  std_candidates_length p _ (std_circular_mem p)

/-- Every walk emitted by `__decompose_hetero_units` is either the input walk
itself or the standardization of a candidate block that passed the
`is_circular_path` check. -/
theorem mem_decompose_hetero_units (g : AsmGraph) (r lm : ℕ) (p q : GPath)
    (h : q ∈ decompose_hetero_units g r lm p) :
    q = p ∨ ∃ t b, dhu_try_start g p r = some t ∧ b ∈ dhu_blocks g p r lm t ∧
      is_circular_path g b = true ∧ q = get_standardized_circular_path b := by
  unfold decompose_hetero_units at h
  by_cases h1 : dhu_gcd g p = 1
  · rw [if_pos h1] at h; exact Or.inl (List.mem_singleton.1 h)
  · rw [if_neg h1] at h
    cases hts : dhu_try_start g p r with
    | none => rw [hts] at h; exact Or.inl (List.mem_singleton.1 h)
    | some t =>
      rw [hts] at h
      rcases List.mem_filterMap.1 h with ⟨b, hb, hfb⟩
      right
      by_cases hcb : is_circular_path g b = true
      · rw [if_pos hcb] at hfb
        exact ⟨t, b, rfl, hb, hcb, (Option.some.inj hfb).symm⟩
      · rw [if_neg hcb] at hfb
        exact absurd hfb (by simp)

/-- C3 (amended): with `force_circular = true`, non-circular traversal
results are rejected (the gate guarantees `is_circular_path` of the accepted
walk), and every walk inserted into `components` is either that accepted
circular walk itself or the standardization of a decomposition block that
passed `is_circular_path` — but only the pre-standardization block is
guaranteed circular, not the inserted standardized form. -/
theorem c3_circularity_gate (g : AsmGraph) (hc : Bool) (r lm : ℕ) (p q : GPath)
    (hq : q ∈ process_traversal g true hc r lm p) :
    is_circular_path g p = true ∧
      ((q = p ∧ is_circular_path g q = true) ∨
        ∃ b, is_circular_path g b = true ∧ q = get_standardized_circular_path b) := by
  unfold process_traversal at hq
  by_cases hgate : ((true && !is_circular_path g p) ||
      (!hc && !is_fully_covered_by g p)) = true
  · rw [if_pos hgate] at hq
    exact absurd hq (List.not_mem_nil q)
  · rw [if_neg hgate] at hq
    have hcb : is_circular_path g p = true := by
      cases h' : is_circular_path g p with
      | false => exfalso; apply hgate; rw [h']; simp
      | true => rfl
    by_cases hlen : g.vertexNames.length * 2 ≤ p.length
    · rw [if_pos hlen] at hq
      rcases mem_decompose_hetero_units g r lm p q hq with rfl | ⟨t, b, _, _, hbc, rfl⟩
      · exact ⟨hcb, Or.inl ⟨rfl, hcb⟩⟩
      · exact ⟨hcb, Or.inr ⟨b, hbc, rfl⟩⟩
    · rw [if_neg hlen] at hq
      have hqp := List.mem_singleton.1 hq
      subst hqp
      exact ⟨hcb, Or.inl ⟨rfl, hcb⟩⟩

/-- C3 (witness for the amended claim): the amended gate property applied to
the concrete six-segment walk of `gHetero`. -/
theorem c3_witness :
    is_circular_path gHetero wHetero = true ∧
      ((([("A", false), ("C", false), ("B", true)] : GPath) = wHetero ∧
          is_circular_path gHetero [("A", false), ("C", false), ("B", true)] = true) ∨
        ∃ b, is_circular_path gHetero b = true ∧
          ([("A", false), ("C", false), ("B", true)] : GPath) =
            get_standardized_circular_path b) :=
  c3_circularity_gate gHetero true 0 5 wHetero
    [("A", false), ("C", false), ("B", true)] (by decide)

/-- C3 (counterexample to the claim as stated): with `force_circular = true`,
the circular, graph-contained, standardized walk `wHetero` passes the gate,
yet hetero-unit decomposition inserts into `components` the standardized
block `[A-, C-, B+]`, which does not satisfy `is_circular_path`
(standardization rotates the block off its checked wrap edge). -/
theorem c3_counterexample :
    contain_path gHetero wHetero = true ∧
      is_circular_path gHetero wHetero = true ∧
      ([("A", false), ("C", false), ("B", true)] : GPath) ∈
        process_traversal gHetero true true 0 5 wHetero ∧
      is_circular_path gHetero [("A", false), ("C", false), ("B", true)] = false := by
  decide

/-- The folded gcd divides every entry of the count list. -/
theorem fgcd_dvd (xs : List ℕ) : ∀ x ∈ xs, find_greatest_common_divisor xs ∣ x := by
  induction xs with
  | nil => intro x hx; cases hx
  | cons a t ih =>
    intro x hx
    rcases List.mem_cons.1 hx with rfl | hx
    · exact Nat.gcd_dvd_left x (find_greatest_common_divisor t)
    · exact dvd_trans (Nat.gcd_dvd_right a (find_greatest_common_divisor t)) (ih x hx)

/-- Summing the per-vertex counts over a duplicate-free vertex list that
covers every name recovers the number of path segments. -/
theorem get_v_counts_sum (g : AsmGraph) (hnd : g.vertexNames.Nodup)
    (names : List String) (h : ∀ x ∈ names, x ∈ g.vertexNames) :
    (get_v_counts g names).sum = names.length := by
  unfold get_v_counts
  rw [← List.sum_toFinset _ hnd]
  have hcover : names.toFinset ⊆ g.vertexNames.toFinset := by
    intro x hx
    exact List.mem_toFinset.2 (h x (List.mem_toFinset.1 hx))
  rw [← Finset.sum_subset hcover
    (fun x _ hx => List.count_eq_zero.2 (fun hmem => hx (List.mem_toFinset.2 hmem)))]
  simp

/-- The per-segment-count gcd of `__decompose_hetero_units` divides the walk
length, provided every walk segment is a graph vertex. -/
theorem dhu_gcd_dvd_length (g : AsmGraph) (p : GPath) (hnd : g.vertexNames.Nodup)
    (hcov : ∀ s ∈ p, s.1 ∈ g.vertexNames) : dhu_gcd g p ∣ p.length := by
  have hsum : (get_v_counts g (p.map Prod.fst)).sum = p.length := by
    rw [get_v_counts_sum g hnd (p.map Prod.fst) (fun x hx => by
      rcases List.mem_map.1 hx with ⟨s, hs, rfl⟩
      exact hcov s hs)]
    exact List.length_map p Prod.fst
  rw [← hsum]
  exact List.dvd_sum (fun x hx => fgcd_dvd _ x hx)

/-- The splitting-offset search never returns an offset beyond its fuel. -/
theorem find_try_start_go_lt (g : AsmGraph) (sn : List String)
    (ul gc : ℕ) (uc : List ℕ) :
    ∀ (fuel t : ℕ) (cc : List ℕ) (t' : ℕ),
    find_try_start_go g sn ul gc uc fuel t cc = some t' → t' < t + fuel := by
  intro fuel
  induction fuel with
  | zero => intro t cc t' h; exact absurd h (by simp [find_try_start_go])
  | succ f ih =>
    intro t cc t' h
    unfold find_try_start_go at h
    split at h
    · have := Option.some.inj h
      omega
    · have := ih (t + 1) _ t' h
      omega

/-- `try_start` is always below `unit_len`. -/
theorem dhu_try_start_lt (g : AsmGraph) (p : GPath) (r t : ℕ)
    (h : dhu_try_start g p r = some t) : t < dhu_unit_len g p := by
  unfold dhu_try_start at h
  have := find_try_start_go_lt g (dhu_shuffled_names g p r) (dhu_unit_len g p)
    (dhu_gcd g p) (dhu_unit_counts g p) (dhu_unit_len g p) 0 _ t h
  omega

/-- `unit_copy_num` is at least one. -/
theorem dhu_unit_copy_num_pos (g : AsmGraph) (p : GPath) (r lm t : ℕ)
    (hg : 1 < dhu_gcd g p) : 1 ≤ dhu_unit_copy_num g p r lm t := by
  unfold dhu_unit_copy_num
  have h1 : (1 : ℤ) ≤ min (max (Int.tdiv ((lm : ℤ) - 2) (dhu_unit_seq_len g p r t)) 1)
      ((dhu_gcd g p : ℕ) : ℤ) := by
    apply le_min (le_max_right _ 1)
    exact_mod_cast Nat.one_le_iff_ne_zero.2 (by omega)
  omega

/-- `path_shuffled` as a single drop of the tripled walk. -/
theorem dhu_path_shuffled_eq (g : AsmGraph) (p : GPath) (r : ℕ) :
    dhu_path_shuffled g p r =
      (p ++ (p ++ p.take (dhu_unit_len g p))).drop (p.length - dhu_r g p r) := by
  unfold dhu_path_shuffled
  rw [List.drop_append_eq_append_drop]
  rw [show p.length - dhu_r g p r - p.length = 0 by omega, List.drop_zero,
    List.append_assoc]

/-- Length of `path_shuffled`. -/
theorem dhu_path_shuffled_length (g : AsmGraph) (p : GPath) (r : ℕ)
    (hul0 : 1 ≤ dhu_unit_len g p) (hul : dhu_unit_len g p ≤ p.length) :
    (dhu_path_shuffled g p r).length = dhu_r g p r + p.length + dhu_unit_len g p := by
  unfold dhu_path_shuffled
  simp only [List.length_append, List.length_drop, List.length_take]
  have hr : dhu_r g p r < dhu_unit_len g p := by
    unfold dhu_r
    exact Nat.mod_lt _ (by omega)
  omega

/-- Concatenating `n` consecutive fixed-size windows of a list yields a
single window of `n` times the size. -/
theorem join_window_slices {α : Type} (xs : List α) (a s : ℕ) :
    ∀ n : ℕ, (((List.range n).map
        (fun i => (xs.drop (a + s * i)).take s)).flatten) =
      (xs.drop a).take (s * n) := by
  intro n
  induction n with
  | zero => simp
  | succ m ih =>
    rw [List.range_succ, List.map_append, List.flatten_append]
    simp only [List.map_cons, List.map_nil, List.flatten_cons, List.flatten_nil,
      List.append_nil]
    rw [ih]
    rw [show s * (m + 1) = s * m + s by ring, List.take_add]
    congr 1
    rw [List.drop_drop]

/-- A window of the length of the walk inside `p ++ p ++ p.take k` is a rotation
of `p`. -/
theorem triple_window (p : GPath) (k o : ℕ) (hk : k < p.length)
    (ho : o ≤ p.length + k) :
    ((p ++ (p ++ p.take k)).drop o).take p.length = rotl p (o % p.length) := by
  rcases Nat.lt_or_ge o p.length with h1 | h1
  · rw [Nat.mod_eq_of_lt h1, List.drop_append_eq_append_drop,
      show o - p.length = 0 by omega, List.drop_zero,
      List.take_append_eq_append_take, List.length_drop,
      List.take_of_length_le (by rw [List.length_drop]; omega),
      show p.length - (p.length - o) = o by omega,
      List.take_append_eq_append_take, show o - p.length = 0 by omega,
      List.take_zero, List.append_nil]
    rfl
  · have hsub : o % p.length = o - p.length := by
      rw [Nat.mod_eq_sub_mod h1, Nat.mod_eq_of_lt (by omega)]
    rw [hsub, List.drop_append_eq_append_drop,
      List.drop_eq_nil_of_le (by omega), List.nil_append,
      List.drop_append_eq_append_drop,
      show o - p.length - p.length = 0 by omega, List.drop_zero,
      List.take_append_eq_append_take, List.length_drop,
      List.take_of_length_le (by rw [List.length_drop]; omega),
      show p.length - (p.length - (o - p.length)) = o - p.length by omega,
      List.take_take, show (o - p.length) ⊓ k = o - p.length by omega]
    rfl

/-- C4 (amended): let `u = unit_copy_num` and `G = gcd` in
`__decompose_hetero_units`.  When the per-segment-count gcd exceeds 1 and the
splitting-offset search succeeds, (i) if `u < G` the walk itself is never
emitted (every emitted walk is strictly shorter), and (ii) if `u ∣ G` the
candidate blocks concatenate, in original order, to a rotation of the
original walk — not to the walk itself; moreover each emitted walk is a
standardized block, not the raw block. -/
theorem c4_decompose_structure (g : AsmGraph) (reseedAt localMax : ℕ)
    (p : GPath) (t : ℕ) (hne : p ≠ []) (hnd : g.vertexNames.Nodup)
    (hcov : ∀ s ∈ p, s.1 ∈ g.vertexNames) (hg : 1 < dhu_gcd g p)
    (ht : dhu_try_start g p reseedAt = some t) :
    (dhu_unit_copy_num g p reseedAt localMax t < dhu_gcd g p →
      p ∉ decompose_hetero_units g reseedAt localMax p) ∧
    (dhu_unit_copy_num g p reseedAt localMax t ∣ dhu_gcd g p →
      (dhu_blocks g p reseedAt localMax t).flatten =
        rotl p ((p.length - dhu_r g p reseedAt + t) % p.length)) := by
  have hL : 0 < p.length := List.length_pos.2 hne
  have hdvd : dhu_gcd g p ∣ p.length := dhu_gcd_dvd_length g p hnd hcov
  have hulG : dhu_unit_len g p * dhu_gcd g p = p.length := by
    unfold dhu_unit_len
    exact Nat.div_mul_cancel hdvd
  have hul1 : 1 ≤ dhu_unit_len g p := by
    unfold dhu_unit_len
    exact Nat.div_pos (Nat.le_of_dvd hL hdvd) (by omega)
  have hulL : dhu_unit_len g p < p.length := Nat.div_lt_self hL hg
  have hrlt : dhu_r g p reseedAt < dhu_unit_len g p := by
    unfold dhu_r
    exact Nat.mod_lt _ (by omega)
  have htl : t < dhu_unit_len g p := dhu_try_start_lt g p reseedAt t ht
  have hupos : 1 ≤ dhu_unit_copy_num g p reseedAt localMax t :=
    dhu_unit_copy_num_pos g p reseedAt localMax t hg
  constructor
  · intro hu hmem
    unfold decompose_hetero_units at hmem
    rw [if_neg (by omega : ¬ dhu_gcd g p = 1), ht] at hmem
    rcases List.mem_filterMap.1 hmem with ⟨b, hb, hfb⟩
    have hblen : b.length =
        dhu_unit_len g p * dhu_unit_copy_num g p reseedAt localMax t := by
      unfold dhu_blocks at hb
      rcases List.mem_map.1 hb with ⟨i, hi, rfl⟩
      have hi2 : i < dhu_gcd g p / dhu_unit_copy_num g p reseedAt localMax t :=
        List.mem_range.1 hi
      have hps := dhu_path_shuffled_length g p reseedAt (by omega) (by omega)
      have hchain : dhu_unit_len g p * dhu_unit_copy_num g p reseedAt localMax t *
          (i + 1) ≤ p.length := by
        calc dhu_unit_len g p * dhu_unit_copy_num g p reseedAt localMax t * (i + 1)
            ≤ dhu_unit_len g p * dhu_unit_copy_num g p reseedAt localMax t *
              (dhu_gcd g p / dhu_unit_copy_num g p reseedAt localMax t) := by
              exact Nat.mul_le_mul_left _ (by omega)
          _ = dhu_unit_len g p * ((dhu_gcd g p / dhu_unit_copy_num g p reseedAt localMax t) *
              dhu_unit_copy_num g p reseedAt localMax t) := by ring
          _ ≤ dhu_unit_len g p * dhu_gcd g p :=
              Nat.mul_le_mul_left _ (Nat.div_mul_le_self _ _)
          _ = p.length := hulG
      have hsucc : dhu_unit_len g p * dhu_unit_copy_num g p reseedAt localMax t *
          (i + 1) = dhu_unit_len g p * dhu_unit_copy_num g p reseedAt localMax t * i +
          dhu_unit_len g p * dhu_unit_copy_num g p reseedAt localMax t := by ring
      rw [List.length_take, List.length_drop, hps]
      omega
    have hplen : p.length = b.length := by
      by_cases hcb : is_circular_path g b = true
      · rw [if_pos hcb] at hfb
        have hq := Option.some.inj hfb
        rw [← hq]
        exact std_circular_length b
      · rw [if_neg hcb] at hfb
        exact absurd hfb (by simp)
    have hle : dhu_unit_len g p * (dhu_unit_copy_num g p reseedAt localMax t + 1) ≤
        dhu_unit_len g p * dhu_gcd g p :=
      Nat.mul_le_mul_left _ (by omega)
    have hdist : dhu_unit_len g p * (dhu_unit_copy_num g p reseedAt localMax t + 1) =
        dhu_unit_len g p * dhu_unit_copy_num g p reseedAt localMax t +
          dhu_unit_len g p := by ring
    omega
  · intro hu
    unfold dhu_blocks
    rw [join_window_slices]
    have hlen : dhu_unit_len g p * dhu_unit_copy_num g p reseedAt localMax t *
        (dhu_gcd g p / dhu_unit_copy_num g p reseedAt localMax t) = p.length := by
      rw [mul_assoc, Nat.mul_div_cancel' hu, hulG]
    rw [hlen, dhu_path_shuffled_eq, List.drop_drop,
      triple_window p (dhu_unit_len g p) (p.length - dhu_r g p reseedAt + t)
        hulL (by omega)]

/-- C4 (counterexample to the claim as stated): `wDouble = A- B- A- B-` in the
two-segment circle graph has per-segment-count gcd `2 > 1` and a splitting
offset (`try_start = 0`), yet with `local_max_alignment_len = 100` the
decomposition emits the walk itself (`unit_copy_num` reaches `gcd`, so the
single emitted block is the whole walk). -/
theorem c4_counterexample :
    1 < dhu_gcd gCircle2 wDouble ∧
      dhu_try_start gCircle2 wDouble 0 = some 0 ∧
      wDouble ∈ decompose_hetero_units gCircle2 0 100 wDouble := by
  decide

/-- C4 (witness for the amended claim): with `local_max_alignment_len = 5`
the same walk has `unit_copy_num = 1 < 2 = gcd`, the walk itself is not
emitted, and the candidate blocks concatenate to a rotation of the walk. -/
theorem c4_witness :
    wDouble ∉ decompose_hetero_units gCircle2 0 5 wDouble ∧
      (dhu_blocks gCircle2 wDouble 0 5 0).flatten =
        rotl wDouble ((wDouble.length - dhu_r gCircle2 wDouble 0 + 0) %
          wDouble.length) := by
  have h := c4_decompose_structure gCircle2 0 5 wDouble 0 (by decide) (by decide)
    (by decide) (by decide) (by decide)
  exact ⟨h.1 (by decide), h.2 (by decide)⟩
